import Mathlib

/-!
Verification of the temporal chunking / segment-merging / alignment pipeline
of the `diarizacao-audio` repository (`diarizacao.py`, `transcricao.py`).

Times are modelled as rationals (`ℚ`).  Python dictionaries holding
`start` / `end` / `speaker` (resp. `text`) keys become Lean structures;
the Python key `end` is rendered as the field `stop` (`end` is a Lean
keyword).  Exceptions and `sys.exit` are modelled with `Except`.
-/

/- Core's rational arithmetic is kept reducible so that concrete runs of the
embedded functions can be checked by kernel reduction. -/
attribute [local semireducible] Rat.add Rat.sub Rat.mul Rat.inv

/-- Python's `min` on two numbers (returns the first argument on ties). -/
def ratMin (a b : ℚ) : ℚ := if a ≤ b then a else b

/-- Python's `max` on two numbers (returns the first argument on ties). -/
def ratMax (a b : ℚ) : ℚ := if b ≤ a then a else b

/-- A time window produced by `split_audio` (`diarizacao.py`, lines 120-153;
the `path` entry, which only names the temporary wav file, is omitted). -/
structure Chunk where
  start_offset : ℚ
  end_offset : ℚ
  chunk_num : ℕ
deriving Repr, DecidableEq

/-- The `while start_time < duration` loop of `split_audio`: each window is
`[start_time, min (start_time + chunk_duration) duration)`; the next cursor is
`end_time - overlap` when `end_time < duration` and `end_time` otherwise (which
immediately terminates the loop).  `fuel` is an upper bound on the number of
iterations used to make the recursion structural. -/
def splitLoop (duration chunk_duration overlap : ℚ) :
    ℕ → ℚ → ℕ → List Chunk
  | 0, _, _ => []
  | fuel + 1, start_time, n =>
    if start_time < duration then
      let end_time := ratMin (start_time + chunk_duration) duration
      ⟨start_time, end_time, n + 1⟩ ::
        splitLoop duration chunk_duration overlap fuel
          (if end_time < duration then end_time - overlap else end_time) (n + 1)
    else []

/-- A natural number dominating `⌈q⌉` (equal to it for positive `q`),
computed by ceiling division on the numerator and denominator. -/
def ratCeilNat (q : ℚ) : ℕ := (q.num.toNat + q.den - 1) / q.den

/-- Iteration bound for `splitLoop`: from cursor `s` the loop runs at most
`⌈(duration - s)/(chunk_duration - overlap)⌉` more times, and that ceiling
at `s = 0` is dominated by this bound (proved in `ceil_le_ratCeilNat`). -/
def splitFuel (duration chunk_duration overlap : ℚ) : ℕ :=
  ratCeilNat (duration / (chunk_duration - overlap)) + 1

/-- `split_audio` of `diarizacao.py` (and, identically, of `transcricao.py`):
the pure chunk planner, with the audio file replaced by its duration and the
per-window `ffmpeg` extraction (irrelevant to the window arithmetic) dropped. -/
def split_audio (duration chunk_duration overlap : ℚ) : List Chunk :=
  splitLoop duration chunk_duration overlap
    (splitFuel duration chunk_duration overlap) 0 0

/-- A diarization segment: dict `{start, end, speaker}` in absolute seconds. -/
structure Segment where
  start : ℚ
  stop : ℚ
  speaker : String
deriving Repr, DecidableEq

/-- Sort key of `segments.sort(key=lambda x: x["start"])`. -/
def segLE (a b : Segment) : Prop := a.start ≤ b.start

instance : DecidableRel segLE := fun a b =>
  inferInstanceAs (Decidable (a.start ≤ b.start))

instance : IsTotal Segment segLE := ⟨fun a b => le_total a.start b.start⟩

instance : IsTrans Segment segLE := ⟨fun _ _ _ h1 h2 => le_trans h1 h2⟩

/-- Python's `list.sort` is a stable sort by `start`; modelled by the (stable)
insertion sort. -/
def sortSegments (segments : List Segment) : List Segment :=
  segments.insertionSort segLE

/-- The `for segment in segments[1:]` loop of `merge_consecutive_segments`:
`pause = segment.start - current.stop`; same speaker with `pause ≤ threshold`
absorbs `segment` by assigning `current.stop := segment.stop`, anything else
emits `current` and restarts from `segment`. -/
def mergeLoop (pause_threshold : ℚ) : Segment → List Segment → List Segment
  | current, [] => [current]
  | current, segment :: rest =>
    if segment.speaker = current.speaker ∧
        segment.start - current.stop ≤ pause_threshold then
      mergeLoop pause_threshold { current with stop := segment.stop } rest
    else
      current :: mergeLoop pause_threshold segment rest

/-- The body of `merge_consecutive_segments` after the sort: empty in, empty
out; otherwise `current = segments[0]` and the loop runs over the tail. -/
def mergeSorted (pause_threshold : ℚ) : List Segment → List Segment
  | [] => []
  | first :: rest => mergeLoop pause_threshold first rest

/-- `merge_consecutive_segments` (`diarizacao.py`, lines 200-226). -/
def merge_consecutive_segments (segments : List Segment)
    (pause_threshold : ℚ) : List Segment :=
  mergeSorted pause_threshold (sortSegments segments)

/-- A transcription segment: dict `{start, end, text}`. -/
structure TransSeg where
  start : ℚ
  stop : ℚ
  text : String
deriving Repr, DecidableEq

/-- An aligned segment: dict `{start, end, text, speaker}`. -/
structure AlignedSeg where
  start : ℚ
  stop : ℚ
  text : String
  speaker : String
deriving Repr, DecidableEq

/-- `overlap = max(0, min(trans_end, seg.end) - max(trans_start, seg.start))`. -/
def overlapLen (trans_start trans_end : ℚ) (seg : Segment) : ℚ :=
  ratMax 0 (ratMin trans_end seg.stop - ratMax trans_start seg.start)

/-- One step of the best-overlap scan: update `(best_speaker, best_overlap)`
only on a strictly larger overlap. -/
def bestStep (trans_start trans_end : ℚ) (acc : String × ℚ)
    (seg : Segment) : String × ℚ :=
  if overlapLen trans_start trans_end seg > acc.2 then
    (seg.speaker, overlapLen trans_start trans_end seg)
  else acc

/-- The inner `for speaker_seg in speaker_segments` loop of
`align_transcription_with_speakers`, starting from
`best_speaker = "DESCONHECIDO"`, `best_overlap = 0`. -/
def findBest (trans_start trans_end : ℚ)
    (speaker_segments : List Segment) : String × ℚ :=
  speaker_segments.foldl (bestStep trans_start trans_end) ("DESCONHECIDO", 0)

/-- `align_transcription_with_speakers` (`diarizacao.py`, lines 239-269):
one aligned record appended per transcription segment, copying its
`start`/`end`/`text` and attaching the best-overlap speaker. -/
def align_transcription_with_speakers :
    List TransSeg → List Segment → List AlignedSeg
  | [], _ => []
  | t :: rest, speaker_segments =>
    ⟨t.start, t.stop, t.text, (findBest t.start t.stop speaker_segments).1⟩ ::
      align_transcription_with_speakers rest speaker_segments

/-- Python's `abs` on a rational. -/
def ratAbs (q : ℚ) : ℚ := if q < 0 then -q else q

/-- State of `SpeakerTracker`: the insertion-ordered `speakers` dict (each
value is its `avg_duration` feature) and the id `counter`. -/
structure TrackerState where
  speakers : List (String × ℚ)
  counter : ℕ
deriving Repr, DecidableEq

/-- `np.mean([s["end"] - s["start"] for s in segment_info])`. -/
def avgDuration (segment_info : List Segment) : ℚ :=
  ((segment_info.map fun s => s.stop - s.start).sum) / segment_info.length

/-- The profile-lookup loop: first stored profile whose `avg_duration` is
within `0.5` (strictly) of the group's mean. -/
def findSpeaker (avg : ℚ) : List (String × ℚ) → Option String
  | [] => none
  | (id, feat) :: rest =>
    if ratAbs (feat - avg) < 1 / 2 then some id else findSpeaker avg rest

/-- Python's `f"{n:02d}"`. -/
def pad2 (n : ℕ) : String := if n < 10 then "0" ++ toString n else toString n

/-- `SpeakerTracker.get_or_create_speaker` (`diarizacao.py`, lines 162-176),
with the mutated `self` made explicit: returns the chosen id and the new
tracker state. -/
def get_or_create_speaker (st : TrackerState) (segment_info : List Segment) :
    String × TrackerState :=
  let avg := avgDuration segment_info
  match findSpeaker avg st.speakers with
  | some id => (id, st)
  | none =>
    let c := st.counter + 1
    let newId := "ORADOR_" ++ pad2 c
    (newId, ⟨st.speakers ++ [(newId, avg)], c⟩)

/-- `get_audio_duration` (`diarizacao.py`, lines 108-118): the `ffprobe`
collaborator either yields a duration or fails; failure is `sys.exit(1)`,
modelled as a propagating `Except.error`. -/
def get_audio_duration (probe : Option ℚ) : Except Unit ℚ :=
  match probe with
  | some d => Except.ok d
  | none => Except.error ()

/-- A raw pyannote track: window-local `(start, end, speaker)`. -/
structure RawTrack where
  start : ℚ
  stop : ℚ
  speaker : String
deriving Repr, DecidableEq

/-- `diarize_chunk_simple` (`diarizacao.py`, lines 178-198): on success the
tracks are shifted by the chunk's `start_offset`; on a pipeline exception the
error is printed (second component: the log) and `[]` is returned. -/
def diarize_chunk_simple (chunk : Chunk)
    (pipelineResult : Except String (List RawTrack)) :
    List Segment × List String :=
  match pipelineResult with
  | Except.ok tracks =>
    (tracks.map fun tr =>
      ⟨tr.start + chunk.start_offset, tr.stop + chunk.start_offset,
        tr.speaker⟩, [])
  | Except.error e =>
    ([], ["Erro na diarização do bloco " ++ toString chunk.chunk_num ++
      ": " ++ e])

/-- The `for chunk in chunks` loop of `main`: in order, each chunk's
segments (and log lines) are appended to the accumulated results; a failed
chunk contributes zero segments. -/
def processChunks :
    List (Chunk × Except String (List RawTrack)) →
      List Segment × List String
  | [] => ([], [])
  | job :: rest =>
    ((diarize_chunk_simple job.1 job.2).1 ++ (processChunks rest).1,
      (diarize_chunk_simple job.1 job.2).2 ++ (processChunks rest).2)

/-- The run skeleton relevant to error propagation: probe the duration
(fatal on failure), then process every chunk. -/
def runDiarization (probe : Option ℚ)
    (jobs : List (Chunk × Except String (List RawTrack))) :
    Except Unit (List Segment × List String) :=
  match get_audio_duration probe with
  | Except.error e => Except.error e
  | Except.ok _ => Except.ok (processChunks jobs)

/-! ## Chunk planner -/

theorem ratMin_eq_min (a b : ℚ) : ratMin a b = min a b := by
  rw [ratMin, min_def]

theorem ratMax_eq_max (a b : ℚ) : ratMax a b = max a b := by
  rcases le_total a b with h | h
  · rcases eq_or_lt_of_le h with rfl | hlt
    · simp [ratMax]
    · rw [ratMax, if_neg (not_le.mpr hlt), max_eq_right h]
  · rw [ratMax, if_pos h, max_eq_left h]

theorem ceil_le_ratCeilNat (q : ℚ) : ⌈q⌉ ≤ (ratCeilNat q : ℤ) := by
  rcases le_or_lt q 0 with hq | hq
  · exact le_trans (Int.ceil_le.mpr (by exact_mod_cast hq)) (Int.natCast_nonneg _)
  · rw [Int.ceil_le]
    have hnum : 0 < q.num := Rat.num_pos.mpr hq
    have key : q.num.toNat ≤ q.den * ratCeilNat q := by
      have h1 : ratCeilNat q = q.num.toNat ⌈/⌉ q.den := by
        rw [Nat.ceilDiv_eq_add_pred_div, ratCeilNat]
      rw [h1]
      exact le_smul_ceilDiv q.den_pos
    have hden : (0 : ℚ) < (q.den : ℚ) := by exact_mod_cast q.den_pos
    push_cast
    conv_lhs => rw [← Rat.num_div_den q]
    rw [div_le_iff₀ hden]
    calc (q.num : ℚ) = ((q.num.toNat : ℤ) : ℚ) := by
          rw [Int.toNat_of_nonneg hnum.le]
      _ ≤ ((q.den * ratCeilNat q : ℕ) : ℚ) := by exact_mod_cast key
      _ = (ratCeilNat q : ℚ) * (q.den : ℚ) := by push_cast; ring

theorem splitLoop_stop (D L ov : ℚ) (fuel n : ℕ) (s : ℚ) (h : ¬ s < D) :
    splitLoop D L ov fuel s n = [] := by
  cases fuel <;> simp [splitLoop, h]

theorem splitLoop_master (D L ov : ℚ) (hov : 0 ≤ ov) (hL : ov < L)
    (fuel : ℕ) :
    ∀ (s : ℚ) (n : ℕ), s < D → ⌈(D - s) / (L - ov)⌉ ≤ (fuel : ℤ) →
      (splitLoop D L ov fuel s n).map Chunk.chunk_num =
          List.range' (n + 1) (splitLoop D L ov fuel s n).length ∧
      (splitLoop D L ov fuel s n).head?.map Chunk.start_offset = some s ∧
      List.Chain' (fun a b => b.start_offset ≤ a.end_offset)
        (splitLoop D L ov fuel s n) ∧
      (∀ w ∈ splitLoop D L ov fuel s n,
        s ≤ w.start_offset ∧ w.start_offset < w.end_offset ∧
          w.end_offset ≤ D) ∧
      (splitLoop D L ov fuel s n).getLast?.map Chunk.end_offset = some D ∧
      (∀ t : ℚ, s ≤ t → t < D → ∃ w ∈ splitLoop D L ov fuel s n,
        w.start_offset ≤ t ∧ t < w.end_offset) := by
  have hstep : 0 < L - ov := sub_pos.mpr hL
  induction fuel with
  | zero =>
    intro s n hs hf
    exfalso
    have h1 : 0 < ⌈(D - s) / (L - ov)⌉ :=
      Int.ceil_pos.mpr (div_pos (sub_pos.mpr hs) hstep)
    omega
  | succ fuel ih =>
    intro s n hs hf
    simp only [splitLoop, ratMin_eq_min, if_pos hs]
    by_cases he : min (s + L) D < D
    · -- the window does not reach the end of the audio: the loop continues
      have hsl : s + L < D := by
        by_contra hc
        push_neg at hc
        rw [min_eq_right hc] at he
        exact lt_irrefl D he
      have heq : min (s + L) D = s + L := min_eq_left hsl.le
      rw [heq] at he ⊢
      rw [if_pos he]
      have hs' : s + L - ov < D := by linarith
      have hm : ⌈(D - (s + L - ov)) / (L - ov)⌉ ≤ (fuel : ℤ) := by
        have harg : (D - (s + L - ov)) / (L - ov) = (D - s) / (L - ov) - 1 := by
          field_simp
          ring
        rw [harg, Int.ceil_sub_one]
        push_cast at hf ⊢
        omega
      obtain ⟨ih1, ih2, ih3, ih4, ih5, ih6⟩ := ih (s + L - ov) (n + 1) hs' hm
      set rest := splitLoop D L ov fuel (s + L - ov) (n + 1) with hrest
      obtain ⟨r, rest', hr⟩ : ∃ r rest', rest = r :: rest' := by
        cases hrc : rest with
        | nil => rw [hrc] at ih2; simp at ih2
        | cons r rest' => exact ⟨r, rest', rfl⟩
      refine ⟨?_, ?_, ?_, ?_, ?_, ?_⟩
      · simpa [List.range'_succ] using ih1
      · simp
      · rw [List.chain'_cons']
        refine ⟨?_, ih3⟩
        intro y hy
        rw [hr] at ih2
        simp only [hr, List.head?_cons, Option.mem_def, Option.some.injEq] at hy ih2
        subst hy
        have : r.start_offset = s + L - ov := by
          simpa using ih2
        simp only [this]
        linarith
      · intro w hw
        rcases List.mem_cons.mp hw with rfl | hw'
        · exact ⟨le_refl _, by simp; linarith, hsl.le⟩
        · obtain ⟨h1, h2, h3⟩ := ih4 w hw'
          exact ⟨by linarith, h2, h3⟩
      · rw [hr, List.getLast?_cons_cons, ← hr]
        exact ih5
      · intro t ht htD
        by_cases htl : t < s + L
        · exact ⟨⟨s, s + L, n + 1⟩, List.mem_cons_self _ _, ht, htl⟩
        · push_neg at htl
          obtain ⟨w, hw, hw1, hw2⟩ := ih6 t (by linarith) htD
          exact ⟨w, List.mem_cons_of_mem _ hw, hw1, hw2⟩
    · -- the window reaches the end of the audio: the loop terminates
      have heD : min (s + L) D = D :=
        le_antisymm (min_le_right _ _) (not_lt.mp he)
      rw [heD, if_neg (lt_irrefl D), splitLoop_stop D L ov fuel (n + 1) D
        (lt_irrefl D)]
      refine ⟨by simp [List.range'_succ], by simp, List.chain'_singleton _,
        ?_, by simp, ?_⟩
      · intro w hw
        rcases List.mem_singleton.mp hw with rfl
        exact ⟨le_refl _, by simpa using hs, le_refl _⟩
      · intro t ht htD
        exact ⟨⟨s, D, n + 1⟩, List.mem_singleton_self _, ht, htD⟩

/-- C4 counterexample: at `duration = 1200`, `chunk_length = 600`,
`overlap = 3` the planner does NOT produce the two windows `[0,600)` and
`[597,1200)` claimed; it does not produce two windows at all. -/
theorem split_audio_example_not_two_windows :
    split_audio 1200 600 3 ≠
      [⟨0, 600, 1⟩, ⟨597, 1200, 2⟩] ∧
    (split_audio 1200 600 3).length ≠ 2 := by
  constructor <;> decide

/-- C4 (amended): at `duration = 1200`, `chunk_length = 600`, `overlap = 3`
the planner produces exactly 3 windows `[0,600)`, `[597,1197)`,
`[1194,1200)`. -/
theorem split_audio_example_three_windows :
    split_audio 1200 600 3 =
      [⟨0, 600, 1⟩, ⟨597, 1197, 2⟩, ⟨1194, 1200, 3⟩] := by
  decide

/-- C5: for `0 < duration`, `0 ≤ overlap < chunk_length`, the planner's
windows carry strictly increasing indices `1, 2, …`, each window starts at or
before the previous window's end (no gap), the union of the half-open windows
is exactly `[0, duration)`, the final window ends exactly at `duration`, and
when `duration ≤ chunk_length` exactly one window `[0, duration)` results. -/
theorem split_audio_gapless_cover (D L ov : ℚ) (hD : 0 < D) (hov : 0 ≤ ov)
    (hL : ov < L) :
    (split_audio D L ov).map Chunk.chunk_num =
        List.range' 1 (split_audio D L ov).length ∧
    List.Chain' (fun a b => b.start_offset ≤ a.end_offset)
      (split_audio D L ov) ∧
    (∀ t : ℚ, (0 ≤ t ∧ t < D) ↔
      ∃ w ∈ split_audio D L ov, w.start_offset ≤ t ∧ t < w.end_offset) ∧
    (split_audio D L ov).getLast?.map Chunk.end_offset = some D ∧
    (D ≤ L → split_audio D L ov = [⟨0, D, 1⟩]) := by
  have hm : ⌈(D - 0) / (L - ov)⌉ ≤ ((splitFuel D L ov : ℕ) : ℤ) := by
    rw [sub_zero]
    have h := ceil_le_ratCeilNat (D / (L - ov))
    rw [splitFuel]
    push_cast
    omega
  obtain ⟨h1, h2, h3, h4, h5, h6⟩ :=
    splitLoop_master D L ov hov hL (splitFuel D L ov) 0 0 hD hm
  refine ⟨by simpa using h1, h3, ?_, h5, ?_⟩
  · intro t
    constructor
    · rintro ⟨ht0, htD⟩
      exact h6 t ht0 htD
    · rintro ⟨w, hw, hw1, hw2⟩
      obtain ⟨hw3, _, hw5⟩ := h4 w hw
      exact ⟨le_trans hw3 hw1, lt_of_lt_of_le hw2 hw5⟩
  · intro hDL
    have hmin : ratMin (0 + L) D = D := by
      rw [ratMin_eq_min, zero_add, min_eq_right hDL]
    rw [split_audio, splitFuel]
    simp only [splitLoop, if_pos hD, hmin, if_neg (lt_irrefl D),
      splitLoop_stop D L ov _ _ D (lt_irrefl D)]

/-- Concrete instance of `split_audio_gapless_cover` at
`duration = 10`, `chunk_length = 4`, `overlap = 1`. -/
theorem split_audio_gapless_cover_witness :
    (split_audio 10 4 1).getLast?.map Chunk.end_offset = some 10 :=
  (split_audio_gapless_cover 10 4 1 (by decide) (by decide)
    (by decide)).2.2.2.1

/-! ## Consecutive-segment merger -/

theorem sortSegments_sorted (l : List Segment) :
    List.Sorted segLE (sortSegments l) :=
  List.sorted_insertionSort segLE l

theorem sortSegments_of_sorted {l : List Segment}
    (h : List.Sorted segLE l) : sortSegments l = l :=
  h.insertionSort_eq

theorem length_sortSegments (l : List Segment) :
    (sortSegments l).length = l.length :=
  List.length_insertionSort segLE l

theorem mergeLoop_ne_nil (t : ℚ) (c : Segment) (l : List Segment) :
    mergeLoop t c l ≠ [] := by
  induction l generalizing c with
  | nil => simp [mergeLoop]
  | cons s r ih =>
    rw [mergeLoop]
    split_ifs
    · exact ih _
    · simp

theorem mergeLoop_cons_head (t : ℚ) (c : Segment) (l : List Segment) :
    ∃ h rest, mergeLoop t c l = h :: rest ∧ h.start = c.start ∧
      h.speaker = c.speaker := by
  induction l generalizing c with
  | nil => exact ⟨c, [], rfl, rfl, rfl⟩
  | cons s r ih =>
    rw [mergeLoop]
    split_ifs with hcond
    · obtain ⟨h, rest, heq, h1, h2⟩ := ih { c with stop := s.stop }
      exact ⟨h, rest, heq, h1, h2⟩
    · exact ⟨c, _, rfl, rfl, rfl⟩

theorem mergeLoop_length_le (t : ℚ) (c : Segment) (l : List Segment) :
    (mergeLoop t c l).length ≤ l.length + 1 := by
  induction l generalizing c with
  | nil => simp [mergeLoop]
  | cons s r ih =>
    rw [mergeLoop]
    split_ifs
    · exact le_trans (ih _) (by simp)
    · simpa using ih s

theorem mergeLoop_chain_blocked (t : ℚ) (c : Segment) (l : List Segment) :
    List.Chain' (fun a b => ¬(b.speaker = a.speaker ∧ b.start - a.stop ≤ t))
      (mergeLoop t c l) := by
  induction l generalizing c with
  | nil => simp [mergeLoop]
  | cons s r ih =>
    rw [mergeLoop]
    split_ifs with hcond
    · exact ih _
    · rw [List.chain'_cons']
      refine ⟨?_, ih s⟩
      intro y hy
      obtain ⟨h, rest, heq, h1, h2⟩ := mergeLoop_cons_head t s r
      rw [heq] at hy
      simp only [List.head?_cons, Option.mem_def, Option.some.injEq] at hy
      subst hy
      rw [h1, h2]
      exact hcond

theorem mergeLoop_fixpoint (t : ℚ) (c : Segment) (l : List Segment)
    (h : List.Chain'
      (fun a b => ¬(b.speaker = a.speaker ∧ b.start - a.stop ≤ t))
      (c :: l)) :
    mergeLoop t c l = c :: l := by
  induction l generalizing c with
  | nil => rfl
  | cons s r ih =>
    obtain ⟨hcb, hrest⟩ := List.chain'_cons.mp h
    rw [mergeLoop, if_neg hcb, ih s hrest]

theorem mergeLoop_sorted (t : ℚ) (c : Segment) (l : List Segment)
    (h : List.Sorted segLE (c :: l)) :
    List.Sorted segLE (mergeLoop t c l) ∧
      ∀ x ∈ mergeLoop t c l, c.start ≤ x.start := by
  induction l generalizing c with
  | nil =>
    refine ⟨by simp [mergeLoop], ?_⟩
    intro x hx
    simp only [mergeLoop, List.mem_singleton] at hx
    subst hx
    exact le_refl _
  | cons s r ih =>
    rw [mergeLoop]
    have hcs : segLE c s :=
      (List.sorted_cons.mp h).1 s (List.mem_cons_self _ _)
    have hsr : List.Sorted segLE (s :: r) := (List.sorted_cons.mp h).2
    split_ifs with hcond
    · have hsorted' : List.Sorted segLE ({ c with stop := s.stop } :: r) := by
        rw [List.sorted_cons]
        exact ⟨fun b hb => (List.sorted_cons.mp h).1 b
          (List.mem_cons_of_mem _ hb), (List.sorted_cons.mp hsr).2⟩
      obtain ⟨ihs, ihmem⟩ := ih _ hsorted'
      exact ⟨ihs, fun x hx => ihmem x hx⟩
    · obtain ⟨ihs, ihmem⟩ := ih s hsr
      constructor
      · rw [List.sorted_cons]
        exact ⟨fun b hb => le_trans hcs (ihmem b hb), ihs⟩
      · intro x hx
        rcases List.mem_cons.mp hx with rfl | hx'
        · exact le_refl _
        · exact le_trans hcs (ihmem x hx')

/-- C1 counterexample: merging `{0,10,"A"}` with the nested same-speaker
segment `{1,2,"A"}` (pause `= -9 ≤ 0`) does NOT keep
`end = max(current.end, s.end) = 10`; the merged segment ends at `2`. -/
theorem merge_absorb_shrinks_counterexample :
    merge_consecutive_segments [⟨0, 10, "A"⟩, ⟨1, 2, "A"⟩] 0 ≠
      [⟨0, ratMax 10 2, "A"⟩] ∧
    merge_consecutive_segments [⟨0, 10, "A"⟩, ⟨1, 2, "A"⟩] 0 =
      [⟨0, 2, "A"⟩] := by
  constructor <;> decide

/-- C1 (amended): when the next segment `b` has the same speaker as the
running segment `a` and `pause = b.start - a.stop` is at most the threshold,
the merger extends the running segment by assigning `end := b.stop`
outright — also when `b.stop < a.stop`, in which case the segment shrinks. -/
theorem merge_absorb_assigns_incoming_stop (a b : Segment) (t : ℚ)
    (hab : a.start ≤ b.start) (hsp : b.speaker = a.speaker)
    (hp : b.start - a.stop ≤ t) :
    merge_consecutive_segments [a, b] t = [⟨a.start, b.stop, a.speaker⟩] := by
  obtain ⟨astart, astop, aspk⟩ := a
  have hsorted : List.Sorted segLE [⟨astart, astop, aspk⟩, b] := by
    simp [List.sorted_cons, segLE]
    exact hab
  rw [merge_consecutive_segments, sortSegments_of_sorted hsorted,
    mergeSorted, mergeLoop, if_pos ⟨hsp, hp⟩]
  rfl

/-- Concrete instance of `merge_absorb_assigns_incoming_stop`. -/
theorem merge_absorb_assigns_incoming_stop_witness :
    merge_consecutive_segments [⟨0, 10, "A"⟩, ⟨1, 2, "A"⟩] 0 =
      [⟨0, 2, "A"⟩] :=
  merge_absorb_assigns_incoming_stop ⟨0, 10, "A"⟩ ⟨1, 2, "A"⟩ 0
    (by decide) (by decide) (by decide)

/-- C2 counterexample: the instant `t = 5` is covered by the input segments
(`{0,10,"A"}` covers it) but by no segment of the merged output, so the union
of the output intervals does not contain the union of the input intervals:
merging can decrease the total covered duration. -/
theorem merge_coverage_decreases_counterexample :
    (∃ s ∈ ([⟨0, 10, "A"⟩, ⟨1, 2, "A"⟩] : List Segment),
      s.start ≤ 5 ∧ (5 : ℚ) < s.stop) ∧
    ¬(∃ s ∈ merge_consecutive_segments [⟨0, 10, "A"⟩, ⟨1, 2, "A"⟩] 0,
      s.start ≤ 5 ∧ (5 : ℚ) < s.stop) := by
  constructor <;> decide

/-- C2 (amended): merging never increases the segment count (the coverage
half of the claim fails, see `merge_coverage_decreases_counterexample`). -/
theorem merge_length_le (segments : List Segment) (t : ℚ) :
    (merge_consecutive_segments segments t).length ≤ segments.length := by
  rw [merge_consecutive_segments]
  have hlen := length_sortSegments segments
  cases hs : sortSegments segments with
  | nil => simp [mergeSorted]
  | cons f r =>
    rw [hs] at hlen
    have h1 := mergeLoop_length_le t f r
    simp only [mergeSorted, List.length_cons] at *
    omega

/-- C6: merging is idempotent — running the merger on its own output (with
the same pause threshold) returns the output unchanged. -/
theorem merge_idempotent (S : List Segment) (t : ℚ) :
    merge_consecutive_segments (merge_consecutive_segments S t) t =
      merge_consecutive_segments S t := by
  cases hs : sortSegments S with
  | nil =>
    have h0 : merge_consecutive_segments S t = [] := by
      rw [merge_consecutive_segments, hs]
      rfl
    rw [h0]
    rfl
  | cons f r =>
    have hsorted_in : List.Sorted segLE (f :: r) := hs ▸ sortSegments_sorted S
    have hout : merge_consecutive_segments S t = mergeLoop t f r := by
      rw [merge_consecutive_segments, hs, mergeSorted]
    obtain ⟨f', r', hfr⟩ : ∃ f' r', mergeLoop t f r = f' :: r' := by
      cases hm : mergeLoop t f r with
      | nil => exact absurd hm (mergeLoop_ne_nil t f r)
      | cons f' r' => exact ⟨f', r', rfl⟩
    have hsorted_out : List.Sorted segLE (mergeLoop t f r) :=
      (mergeLoop_sorted t f r hsorted_in).1
    have hblocked : List.Chain'
        (fun a b => ¬(b.speaker = a.speaker ∧ b.start - a.stop ≤ t))
        (mergeLoop t f r) := mergeLoop_chain_blocked t f r
    rw [hout, merge_consecutive_segments,
      sortSegments_of_sorted hsorted_out, hfr, mergeSorted]
    exact mergeLoop_fixpoint t f' r' (hfr ▸ hblocked)

/-! ## Interval aligner -/

theorem overlapLen_nonneg (ts te : ℚ) (s : Segment) :
    0 ≤ overlapLen ts te s := by
  rw [overlapLen, ratMax_eq_max]
  exact le_max_left 0 _

theorem foldl_bestStep_spec (ts te : ℚ) (l : List Segment) :
    ∀ (bs : String) (bo : ℚ), 0 ≤ bo →
      (l.foldl (bestStep ts te) (bs, bo) = (bs, bo) ∧
        ∀ r ∈ l, overlapLen ts te r ≤ bo) ∨
      (∃ l₁ q l₂, l = l₁ ++ q :: l₂ ∧
        l.foldl (bestStep ts te) (bs, bo) =
          (q.speaker, overlapLen ts te q) ∧
        bo < overlapLen ts te q ∧
        (∀ r ∈ l₁, overlapLen ts te r < overlapLen ts te q) ∧
        (∀ r ∈ l₂, overlapLen ts te r ≤ overlapLen ts te q)) := by
  induction l with
  | nil =>
    intro bs bo _
    left
    exact ⟨rfl, by simp⟩
  | cons s rest ih =>
    intro bs bo hbo
    rw [List.foldl_cons]
    by_cases hcase : bo < overlapLen ts te s
    · have hstep : bestStep ts te (bs, bo) s =
          (s.speaker, overlapLen ts te s) := by
        simp [bestStep, hcase]
      rw [hstep]
      rcases ih s.speaker (overlapLen ts te s) (le_trans hbo hcase.le) with
        ⟨heq, hall⟩ | ⟨l₁, q, l₂, hsplit, heq, hlt, hbefore, hafter⟩
      · right
        exact ⟨[], s, rest, by simp, heq, hcase, by simp, hall⟩
      · right
        refine ⟨s :: l₁, q, l₂, by simp [hsplit], heq,
          lt_trans hcase hlt, ?_, hafter⟩
        intro r hr
        rcases List.mem_cons.mp hr with rfl | hr'
        · exact hlt
        · exact hbefore r hr'
    · push_neg at hcase
      have hstep : bestStep ts te (bs, bo) s = (bs, bo) := by
        simp [bestStep, not_lt.mpr hcase]
      rw [hstep]
      rcases ih bs bo hbo with
        ⟨heq, hall⟩ | ⟨l₁, q, l₂, hsplit, heq, hlt, hbefore, hafter⟩
      · left
        refine ⟨heq, ?_⟩
        intro r hr
        rcases List.mem_cons.mp hr with rfl | hr'
        · exact hcase
        · exact hall r hr'
      · right
        refine ⟨s :: l₁, q, l₂, by simp [hsplit], heq, hlt, ?_, hafter⟩
        intro r hr
        rcases List.mem_cons.mp hr with rfl | hr'
        · exact lt_of_le_of_lt hcase hlt
        · exact hbefore r hr'

theorem findBest_spec (ts te : ℚ) (spk : List Segment) :
    ((∀ q ∈ spk, overlapLen ts te q = 0) →
      findBest ts te spk = ("DESCONHECIDO", 0)) ∧
    ((∃ q ∈ spk, 0 < overlapLen ts te q) →
      ∃ q ∈ spk, (findBest ts te spk).1 = q.speaker ∧
        0 < overlapLen ts te q ∧
        ∀ r ∈ spk, overlapLen ts te r ≤ overlapLen ts te q) := by
  rcases foldl_bestStep_spec ts te spk "DESCONHECIDO" 0 le_rfl with
    ⟨heq, hall⟩ | ⟨l₁, q, l₂, hsplit, heq, hlt, hbefore, hafter⟩
  · constructor
    · intro _
      exact heq
    · rintro ⟨q, hq, hqpos⟩
      exact absurd (hall q hq) (not_le.mpr hqpos)
  · have hqmem : q ∈ spk := by
      rw [hsplit]
      exact List.mem_append_right _ (List.mem_cons_self _ _)
    constructor
    · intro hzero
      exact absurd (hzero q hqmem) (by linarith)
    · intro _
      refine ⟨q, hqmem, by rw [findBest, heq], hlt, ?_⟩
      intro r hr
      rw [hsplit] at hr
      rcases List.mem_append.mp hr with hr1 | hr2
      · exact (hbefore r hr1).le
      · rcases List.mem_cons.mp hr2 with rfl | hr3
        · exact le_refl _
        · exact hafter r hr3

theorem align_getElem? (trans : List TransSeg) (spk : List Segment)
    (i : ℕ) :
    (align_transcription_with_speakers trans spk)[i]? =
      (trans[i]?).map (fun t =>
        ⟨t.start, t.stop, t.text, (findBest t.start t.stop spk).1⟩) := by
  induction trans generalizing i with
  | nil => simp [align_transcription_with_speakers]
  | cons t rest ih =>
    cases i with
    | zero => simp [align_transcription_with_speakers]
    | succ j => simpa [align_transcription_with_speakers] using ih j

/-- C3 counterexample: the primary segment `{2,8,"hello"}` against
`[{0,5,"X"},{5,10,"Y"}]` (overlap 3 with each) is labelled `"X"` — the first
candidate — not `"Y"` as the claim states. -/
theorem align_tie_example_counterexample :
    align_transcription_with_speakers [⟨2, 8, "hello"⟩]
        [⟨0, 5, "X"⟩, ⟨5, 10, "Y"⟩] = [⟨2, 8, "hello", "X"⟩] ∧
    (align_transcription_with_speakers [⟨2, 8, "hello"⟩]
        [⟨0, 5, "X"⟩, ⟨5, 10, "Y"⟩]).map AlignedSeg.speaker ≠ ["Y"] := by
  constructor <;> decide

/-- C3 (amended): the example yields `speaker = "X"`, and in general ties in
overlap are won by the first candidate in iteration order, because the scan
updates only on a strict `>`: any candidate `q` with positive overlap that
strictly beats everything before it and is not strictly beaten by anything
after it is the one reported. -/
theorem align_tie_first_seen :
    (align_transcription_with_speakers [⟨2, 8, "hello"⟩]
        [⟨0, 5, "X"⟩, ⟨5, 10, "Y"⟩]).map AlignedSeg.speaker = ["X"] ∧
    ∀ (ts te : ℚ) (l₁ l₂ : List Segment) (q : Segment),
      0 < overlapLen ts te q →
      (∀ r ∈ l₁, overlapLen ts te r < overlapLen ts te q) →
      (∀ r ∈ l₂, overlapLen ts te r ≤ overlapLen ts te q) →
      (findBest ts te (l₁ ++ q :: l₂)).1 = q.speaker := by
  constructor
  · decide
  · intro ts te l₁ l₂ q hq hbefore hafter
    rw [findBest, List.foldl_append]
    have hinit : 0 ≤ overlapLen ts te q → True := fun _ => trivial
    have hp : (List.foldl (bestStep ts te) ("DESCONHECIDO", 0) l₁).2 <
        overlapLen ts te q ∧
        0 ≤ (List.foldl (bestStep ts te) ("DESCONHECIDO", 0) l₁).2 := by
      rcases foldl_bestStep_spec ts te l₁ "DESCONHECIDO" 0 le_rfl with
        ⟨heq, _⟩ | ⟨m₁, q', m₂, hsplit, heq, hlt, _, _⟩
      · rw [heq]
        exact ⟨hq, le_refl 0⟩
      · rw [heq]
        have hq'mem : q' ∈ l₁ := by
          rw [hsplit]
          exact List.mem_append_right _ (List.mem_cons_self _ _)
        exact ⟨hbefore q' hq'mem, le_trans le_rfl hlt.le⟩
    obtain ⟨hplt, hpnn⟩ := hp
    rw [List.foldl_cons]
    have hstep : bestStep ts te
        (List.foldl (bestStep ts te) ("DESCONHECIDO", 0) l₁) q =
        (q.speaker, overlapLen ts te q) := by
      rw [bestStep, if_pos hplt]
    rw [hstep]
    rcases foldl_bestStep_spec ts te l₂ q.speaker (overlapLen ts te q)
        hq.le with ⟨heq, _⟩ | ⟨m₁, q'', m₂, hsplit, _, hlt, _, _⟩
    · rw [heq]
    · have hq''mem : q'' ∈ l₂ := by
        rw [hsplit]
        exact List.mem_append_right _ (List.mem_cons_self _ _)
      exact absurd (hafter q'' hq''mem) (not_le.mpr hlt)

/-- Concrete instance of the tie-breaking half of `align_tie_first_seen`. -/
theorem align_tie_first_seen_witness :
    (findBest 2 8 [⟨0, 5, "X"⟩, ⟨5, 10, "Y"⟩]).1 = "X" :=
  align_tie_first_seen.2 2 8 [] [⟨5, 10, "Y"⟩] ⟨0, 5, "X"⟩
    (by decide) (by decide) (by decide)

/-- C7: each aligned segment's speaker is the label of a secondary segment
of maximal overlap whenever some secondary candidate overlaps positively,
and the sentinel `"DESCONHECIDO"` when every candidate (possibly none)
has zero overlap. -/
theorem align_speaker_best_or_unknown (trans : List TransSeg)
    (spk : List Segment) (i : ℕ) (a : AlignedSeg)
    (ha : (align_transcription_with_speakers trans spk)[i]? = some a) :
    ((∀ q ∈ spk, overlapLen a.start a.stop q = 0) →
      a.speaker = "DESCONHECIDO") ∧
    ((∃ q ∈ spk, 0 < overlapLen a.start a.stop q) →
      ∃ q ∈ spk, a.speaker = q.speaker ∧ 0 < overlapLen a.start a.stop q ∧
        ∀ r ∈ spk, overlapLen a.start a.stop r ≤
          overlapLen a.start a.stop q) := by
  rw [align_getElem?] at ha
  obtain ⟨p, hp, hmap⟩ := Option.map_eq_some'.mp ha
  subst hmap
  constructor
  · intro hzero
    show (findBest p.start p.stop spk).1 = "DESCONHECIDO"
    rw [(findBest_spec p.start p.stop spk).1 hzero]
  · intro hex
    exact (findBest_spec p.start p.stop spk).2 hex

/-- Concrete instance of `align_speaker_best_or_unknown`: the primary segment
`{2,8,"hello"}` gets speaker `"X"`, a maximal-overlap candidate. -/
theorem align_speaker_best_or_unknown_witness :
    ∃ q ∈ ([⟨0, 5, "X"⟩, ⟨5, 10, "Y"⟩] : List Segment),
      (⟨2, 8, "hello", "X"⟩ : AlignedSeg).speaker = q.speaker ∧
      0 < overlapLen (⟨2, 8, "hello", "X"⟩ : AlignedSeg).start
        (⟨2, 8, "hello", "X"⟩ : AlignedSeg).stop q ∧
      ∀ r ∈ ([⟨0, 5, "X"⟩, ⟨5, 10, "Y"⟩] : List Segment),
        overlapLen (⟨2, 8, "hello", "X"⟩ : AlignedSeg).start
            (⟨2, 8, "hello", "X"⟩ : AlignedSeg).stop r ≤
          overlapLen (⟨2, 8, "hello", "X"⟩ : AlignedSeg).start
            (⟨2, 8, "hello", "X"⟩ : AlignedSeg).stop q :=
  (align_speaker_best_or_unknown [⟨2, 8, "hello"⟩]
      [⟨0, 5, "X"⟩, ⟨5, 10, "Y"⟩] 0 ⟨2, 8, "hello", "X"⟩ (by decide)).2
    ⟨⟨0, 5, "X"⟩, by decide, by decide⟩

/-- C10: the aligner emits exactly one record per transcription segment, in
input order, with `start`, `end` and `text` copied unchanged (the embedding
is pure, mirroring the source, which only reads its two inputs and appends
to a fresh list). -/
theorem align_frame (trans : List TransSeg) (spk : List Segment) :
    (align_transcription_with_speakers trans spk).length = trans.length ∧
    List.Forall₂
      (fun a p => a.start = p.start ∧ a.stop = p.stop ∧ a.text = p.text)
      (align_transcription_with_speakers trans spk) trans := by
  induction trans with
  | nil => exact ⟨rfl, List.Forall₂.nil⟩
  | cons t rest ih =>
    obtain ⟨ih1, ih2⟩ := ih
    constructor
    · simpa [align_transcription_with_speakers] using ih1
    · exact List.Forall₂.cons ⟨rfl, rfl, rfl⟩ ih2

/-! ## Speaker identity tracker -/

theorem findSpeaker_none_iff (avg : ℚ) (l : List (String × ℚ)) :
    findSpeaker avg l = none ↔
      ∀ p ∈ l, ¬(ratAbs (p.2 - avg) < 1 / 2) := by
  induction l with
  | nil => simp [findSpeaker]
  | cons p rest ih =>
    obtain ⟨id, feat⟩ := p
    rw [findSpeaker]
    split_ifs with h
    · simp only [List.mem_cons]
      constructor
      · intro hcontra
        exact absurd hcontra (by simp)
      · intro hall
        exact absurd h (hall (id, feat) (Or.inl rfl))
    · rw [ih]
      constructor
      · intro hall r hr
        rcases List.mem_cons.mp hr with rfl | hr'
        · exact h
        · exact hall r hr'
      · intro hall r hr
        exact hall r (List.mem_cons_of_mem _ hr)

theorem findSpeaker_some (avg : ℚ) (l : List (String × ℚ)) (id : String)
    (h : findSpeaker avg l = some id) :
    ∃ p ∈ l, p.1 = id ∧ ratAbs (p.2 - avg) < 1 / 2 := by
  induction l with
  | nil => simp [findSpeaker] at h
  | cons p rest ih =>
    obtain ⟨pid, feat⟩ := p
    rw [findSpeaker] at h
    split_ifs at h with hmatch
    · obtain rfl := Option.some.injEq _ _ ▸ h
      exact ⟨(pid, feat), List.mem_cons_self _ _, (by injection h), hmatch⟩
    · obtain ⟨q, hq, hq1, hq2⟩ := ih h
      exact ⟨q, List.mem_cons_of_mem _ hq, hq1, hq2⟩

/-- C9 counterexample: the first identifier allocated by the tracker is
`"ORADOR_01"`, not `"SPEAKER_01"` as the claim states. -/
theorem tracker_id_form_counterexample :
    (get_or_create_speaker ⟨[], 0⟩ [⟨0, 1, "s"⟩]).1 = "ORADOR_01" ∧
    (get_or_create_speaker ⟨[], 0⟩ [⟨0, 1, "s"⟩]).1 ≠ "SPEAKER_01" := by
  constructor <;> decide

/-- C9 (amended): the tracker computes the group's mean duration; if a stored
profile's mean is within `0.5` s of it, a matching profile's id is returned
with the state unchanged; otherwise the sequential id
`"ORADOR_" ++ pad2 (counter+1)` (`ORADOR_01`, `ORADOR_02`, …) is allocated
and appended; stored profiles are only ever added, never removed. -/
theorem tracker_reuse_or_new_profile (st : TrackerState)
    (g : List Segment) (hg : g ≠ []) :
    avgDuration g * g.length = (g.map fun s => s.stop - s.start).sum ∧
    ((∃ p ∈ st.speakers, ratAbs (p.2 - avgDuration g) < 1 / 2) →
      (get_or_create_speaker st g).2 = st ∧
      ∃ p ∈ st.speakers, (get_or_create_speaker st g).1 = p.1 ∧
        ratAbs (p.2 - avgDuration g) < 1 / 2) ∧
    ((∀ p ∈ st.speakers, ¬(ratAbs (p.2 - avgDuration g) < 1 / 2)) →
      (get_or_create_speaker st g).1 = "ORADOR_" ++ pad2 (st.counter + 1) ∧
      (get_or_create_speaker st g).2.speakers =
        st.speakers ++ [((get_or_create_speaker st g).1, avgDuration g)] ∧
      (get_or_create_speaker st g).2.counter = st.counter + 1) ∧
    (∀ p ∈ st.speakers, p ∈ (get_or_create_speaker st g).2.speakers) := by
  have hlen : ((g.length : ℕ) : ℚ) ≠ 0 := by
    have : 0 < g.length := List.length_pos.mpr hg
    positivity
  refine ⟨by rw [avgDuration, div_mul_cancel₀ _ hlen], ?_⟩
  cases hfs : findSpeaker (avgDuration g) st.speakers with
  | some id =>
    have hgoc : get_or_create_speaker st g = (id, st) := by
      simp only [get_or_create_speaker]
      rw [hfs]
    obtain ⟨p, hp, hp1, hp2⟩ := findSpeaker_some _ _ _ hfs
    refine ⟨?_, ?_, ?_⟩
    · intro _
      exact ⟨by rw [hgoc], p, hp, by rw [hgoc]; exact hp1.symm, hp2⟩
    · intro hnone
      exact absurd hp2 (hnone p hp)
    · intro q hq
      rw [hgoc]
      exact hq
  | none =>
    have hgoc : get_or_create_speaker st g =
        ("ORADOR_" ++ pad2 (st.counter + 1),
          ⟨st.speakers ++
            [("ORADOR_" ++ pad2 (st.counter + 1), avgDuration g)],
            st.counter + 1⟩) := by
      simp only [get_or_create_speaker]
      rw [hfs]
    refine ⟨?_, ?_, ?_⟩
    · rintro ⟨p, hp, hp2⟩
      exact absurd hp2 ((findSpeaker_none_iff _ _).mp hfs p hp)
    · intro _
      exact ⟨by rw [hgoc], by rw [hgoc], by rw [hgoc]⟩
    · intro q hq
      rw [hgoc]
      exact List.mem_append_left _ hq

/-- Concrete instance of `tracker_reuse_or_new_profile`: with one stored
profile of mean `1` and a group of mean `10`, a second id is allocated. -/
theorem tracker_reuse_or_new_profile_witness :
    (get_or_create_speaker ⟨[("ORADOR_01", 1)], 1⟩ [⟨0, 10, "s"⟩]).1 =
      "ORADOR_" ++ pad2 2 :=
  ((tracker_reuse_or_new_profile ⟨[("ORADOR_01", 1)], 1⟩ [⟨0, 10, "s"⟩]
      (by decide)).2.2.1 (by decide)).1

/-! ## Error handling -/

/-- C8: a chunk whose model invocation throws is logged and contributes
exactly zero segments, and the surrounding loop processes the remaining
chunks as if the failed chunk were absent — the run is never aborted by a
chunk failure; by contrast a failing duration probe (the `ffprobe`
collaborator) terminates the whole run. -/
theorem chunk_failure_isolated_probe_failure_fatal :
    (∀ (chunk : Chunk) (e : String),
      (diarize_chunk_simple chunk (Except.error e)).1 = [] ∧
      (diarize_chunk_simple chunk (Except.error e)).2 ≠ []) ∧
    (∀ (pre post : List (Chunk × Except String (List RawTrack)))
        (c : Chunk) (e : String),
      (processChunks (pre ++ (c, Except.error e) :: post)).1 =
        (processChunks (pre ++ post)).1) ∧
    (∀ jobs : List (Chunk × Except String (List RawTrack)),
      runDiarization none jobs = Except.error ()) ∧
    (∀ (d : ℚ) (jobs : List (Chunk × Except String (List RawTrack))),
      runDiarization (some d) jobs = Except.ok (processChunks jobs)) := by
  refine ⟨?_, ?_, ?_, ?_⟩
  · intro chunk e
    exact ⟨rfl, by simp [diarize_chunk_simple]⟩
  · intro pre post c e
    induction pre with
    | nil => simp [processChunks, diarize_chunk_simple]
    | cons j pre' ih => simp [processChunks, ih]
  · intro jobs
    rfl
  · intro d jobs
    rfl
